import Mathlib

/-!
# A shallow embedding of the in-memory filesystem (src/dir.go)

The Go functions take a slash-separated path string, immediately
`strings.Split` it on `"/"`, and recursive calls pass
`strings.Join(parts[1:], "/")`, which the callee re-splits.  Segments produced
by `Split` never contain the separator, so re-splitting the joined tail gives
the tail back, except that the empty join (tail `[]` or `[""]`) re-splits to
`[""]`; several functions also test `name == ""` before splitting.  The
embedding therefore represents every path argument by its split segment list
(a non-empty list: the string `""` is `[""]`, `"."` is `["."]`, `"a/b"` is
`["a", "b"]`, `"a/"` is `["a", ""]`), and each `name == ""` test becomes the
two cases `[]` (joined from an empty tail) and `[""]` (the split of `""`).

Go's `map[string]*T` is embedded as an association list with first-match
lookup (`lookupA`) and replace-or-append assignment (`updA`); map iteration
order (arbitrary in Go) is the list order, and the order-independence of
`ReadDir` is proved explicitly.  `time.Now()` is modelled by an explicit
`now : Nat` parameter.  In-place mutation becomes returning the updated tree
paired with the optional error, since the Go code reports errors alongside
mutations that already happened.  The per-node `sync.RWMutex` has no
observable effect in this sequential embedding.
-/

set_option maxRecDepth 2000

namespace MemoryFS

/-- Metadata value.  Modelled from the spec: the `fileinfo` struct is defined
outside src/ (fileinfo.go is absent); its fields follow the struct literals in
`MkdirAll` and `WriteFile` (src/dir.go): name, size, modification time,
directory flag, mode bits. -/
structure fileinfo where
  name : String
  size : Int
  modified : Nat
  isDir : Bool
  mode : Nat
deriving DecidableEq, Repr

/-- Modelled from the spec: the file node (file.go is absent from src/).  A
file owns a growable byte buffer plus metadata; `content` holds the bytes (the
pre-allocated minimum capacity of the Go buffer is not observable and is not
modelled). -/
structure file where
  info : fileinfo
  content : List Nat
deriving DecidableEq, Repr

/-- Modelled from the spec: the read handle produced by `openR` (file.go is
absent from src/): an independent cursor over a snapshot of the content;
`Stat` on the handle returns the file metadata. -/
structure handleR where
  info : fileinfo
  content : List Nat
  pos : Nat
deriving DecidableEq, Repr

/-- Modelled from the spec: `openR` returns a handle with its own read cursor
starting at zero. -/
def file.openR (f : file) : handleR := ⟨f.info, f.content, 0⟩

/-- Modelled from the spec: `Stat` on a read handle returns the metadata
snapshot. -/
def handleR.stat (h : handleR) : fileinfo := h.info

/-- Reading the handle to completion yields the bytes from the cursor on. -/
def handleR.readAll (h : handleR) : List Nat := h.content.drop h.pos

/-- Modelled from the spec: `overwrite` replaces the buffer and refreshes
size, modification time and mode (the name is kept, the node stays a
non-directory).  The InvalidMode failure is contract-defined by the metadata
value and never triggered in this scope, so `overwrite` always succeeds. -/
def file.overwrite (f : file) (buffer : List Nat) (now perm : Nat) : file :=
  ⟨⟨f.info.name, (buffer.length : Int), now, false, perm⟩, buffer⟩

/-- The error kinds of the Go code: `fs.ErrNotExist`, `fs.ErrExist`,
`fs.ErrInvalid`, and the wrapping error built by `Open`
(`fmt.Errorf("no such file or directory: %s: %w", name, fs.ErrNotExist)`),
which carries the original path (as its segment list). -/
inductive Err where
  | notExist
  | exist
  | invalid
  | wrap : List String → Err → Err
deriving DecidableEq, Repr

/-- `os.IsNotExist`: holds of `fs.ErrNotExist` and of any error wrapping it. -/
def Err.isNotExist : Err → Bool
  | .notExist => true
  | .wrap _ e => e.isNotExist
  | _ => false

/-- A directory node (src/dir.go:15-20): metadata plus keyed collections of
child directories and child files, embedded as association lists. -/
inductive dir where
  | mk : fileinfo → List (String × dir) → List (String × file) → dir

/-- The node's metadata field. -/
def dir.info : dir → fileinfo
  | .mk i _ _ => i

/-- The node's child-directory map. -/
def dir.dirs : dir → List (String × dir)
  | .mk _ ds _ => ds

/-- The node's child-file map. -/
def dir.files : dir → List (String × file)
  | .mk _ _ fs => fs

/-- Go map lookup `m[k]` on the association-list embedding. -/
def lookupA {α : Type} (k : String) : List (String × α) → Option α
  | [] => none
  | (k', v) :: t => if k' = k then some v else lookupA k t

/-- Go map assignment `m[k] = v`: replace the binding of `k`, or append a new
one. -/
def updA {α : Type} (k : String) (v : α) : List (String × α) → List (String × α)
  | [] => [(k, v)]
  | (k', v') :: t => if k' = k then (k', v) :: t else (k', v') :: updA k v t

/-- `getDir` (src/dir.go:70-86) on segment lists.  Go tests `name == ""`
before splitting, and a recursive call receives the joined tail, so both `[]`
(the join of an empty tail) and `[""]` (the split of `""`) denote the current
node; otherwise the head segment is looked up in `dirs` and resolution
recurses into the child with the tail. -/
def dir.getDir : dir → List String → Option dir
  | d, [] => some d
  | d, p :: rest =>
    if p = "" ∧ rest = [] then some d
    else
      match lookupA p d.dirs with
      | some c => c.getDir rest
      | none => none

/-- `getFile` (src/dir.go:49-68) on segment lists: a single segment is looked
up in `files`; otherwise the head segment is resolved through `getDir` (so a
head `""` denotes the current node, exactly as the Go call `d.getDir("")`
returns the receiver) and the tail is resolved in the resulting child.  The
`[]` case cannot arise from any split. -/
def dir.getFile : dir → List String → Option file
  | _, [] => none
  | d, [p] => lookupA p d.files
  | d, p :: rest =>
    match d.getDir [p] with
    | some sub => sub.getFile rest
    | none => none

/-- An open handle: either a file read handle or the directory node itself. -/
inductive Handle where
  | fileH : handleR → Handle
  | dirH : dir → Handle

/-- `Open` (src/dir.go:22-41) on segment lists (the string `""` is `[""]`,
`"."` is `["."]`).  `getFile` and `getDir` only ever fail with the not-exist
condition, so the `!os.IsNotExist(err)` branches of the Go code are dead; on
double failure the error wraps the original path around `fs.ErrNotExist`. -/
def dir.Open (d : dir) (name : List String) : Except Err Handle :=
  if name = [""] ∨ name = ["."] then .ok (.dirH d)
  else
    match d.getFile name with
    | some f => .ok (.fileH f.openR)
    | none =>
      match d.getDir name with
      | some sub => .ok (.dirH sub)
      | none => .error (.wrap name .notExist)

/-- `Stat` (src/dir.go:43-47): a snapshot of the node's metadata. -/
def dir.Stat (d : dir) : fileinfo := d.info

/-- `Read` on a directory node (src/dir.go:117-119): no bytes,
`fs.ErrInvalid`, regardless of the buffer. -/
def dir.Read (_ : dir) (_buffer : List Nat) : Nat × Option Err :=
  (0, some .invalid)

/-- `Close` on a directory node (src/dir.go:121-123): always succeeds. -/
def dir.Close (_ : dir) : Option Err := none

/-- The comparison underlying `ReadDir`'s sort: Go's
`sort.Slice(entries, entries[i].Name() < entries[j].Name())` produces a
sequence nondecreasing in this relation (Go string `<` is byte-lexicographic,
which on valid UTF-8 agrees with Lean's lexicographic `String` order). -/
def nameLe (a b : fileinfo) : Prop := a.name ≤ b.name

instance : DecidableRel nameLe := fun a b =>
  decidable_of_iff (a.name ≤ b.name) Iff.rfl

instance : IsTotal fileinfo nameLe := ⟨fun a b => le_total a.name b.name⟩

instance : IsTrans fileinfo nameLe := ⟨fun _ _ _ h1 h2 => le_trans h1 h2⟩

/-- The strict name order: sortedness in it pins a listing down uniquely. -/
def nameLt (a b : fileinfo) : Prop := a.name < b.name

instance : IsAntisymm fileinfo nameLt :=
  ⟨fun a _ h1 h2 => absurd (lt_trans h1 h2) (lt_irrefl a.name)⟩

/-- The entry list built by `ReadDir` for an empty path (src/dir.go:89-103):
a stat snapshot of every direct child file (via `openR().Stat()`) and of every
direct child directory, sorted by `sort.Slice` with the comparison
`entries[i].Name() < entries[j].Name()`.  Go iterates the two maps in
arbitrary order before sorting; the association-list order stands in for one
such order, and order-independence of the result is proved below. -/
def listEntries (d : dir) : List fileinfo :=
  List.insertionSort nameLe
    (d.files.map (fun kv => kv.2.openR.stat) ++ d.dirs.map (fun kv => kv.2.Stat))

/-- `ReadDir` (src/dir.go:88-115) on segment lists: `[]` (the join of an empty
tail) and `[""]` (the split of `""`) list the current node; otherwise the head
segment must name a child directory (`fs.ErrNotExist` otherwise) and the
listing recurses into it with the tail. -/
def dir.ReadDir : dir → List String → Except Err (List fileinfo)
  | d, [] => .ok (listEntries d)
  | d, p :: rest =>
    if p = "" ∧ rest = [] then .ok (listEntries d)
    else
      match lookupA p d.dirs with
      | some c => c.ReadDir rest
      | none => .error .notExist

/-- The directory node created by `MkdirAll` (src/dir.go:135-148): the given
name and mode, nominal size `0x100`, the current time as modification time,
empty child maps. -/
def mkNewDir (p : String) (now perm : Nat) : dir :=
  .mk ⟨p, 0x100, now, true, perm⟩ [] []

/-- `MkdirAll` (src/dir.go:125-159) on segment lists, with `time.Now()`
modelled by `now`.  A name collision with a child file fails with
`fs.ErrExist` before any mutation; otherwise the child directory is created if
absent, the node's own modification time is set to the current time, and with
more than one segment the call recurses into the child, whose updated value
replaces the map entry (the in-place Go mutation). -/
def dir.MkdirAll : dir → List String → Nat → Nat → dir × Option Err
  | d, [], _, _ => (d, none)
  | d, p :: rest, now, perm =>
    if (lookupA p d.files).isSome then (d, some .exist)
    else
      let child := (lookupA p d.dirs).getD (mkNewDir p now perm)
      match rest with
      | [] =>
        (.mk ⟨d.info.name, d.info.size, now, d.info.isDir, d.info.mode⟩
          (updA p child d.dirs) d.files, none)
      | r :: rs =>
        let res := child.MkdirAll (r :: rs) now perm
        (.mk ⟨d.info.name, d.info.size, now, d.info.isDir, d.info.mode⟩
          (updA p res.1 d.dirs) d.files, res.2)

/-- The file node created by `WriteFile` (src/dir.go:176-187): name, size =
length of the buffer, current time, not a directory, the given mode. -/
def mkNewFile (p : String) (buffer : List Nat) (now perm : Nat) : file :=
  ⟨⟨p, (buffer.length : Int), now, false, perm⟩, buffer⟩

/-- `WriteFile` (src/dir.go:161-202) on segment lists, with `time.Now()` as
`now`.  A single segment writes the leaf: overwrite an existing file node in
place, or create a new one (the Go buffer copy and its minimum capacity are
not observable and not modelled); no collision check against `dirs` is made.
With more segments the head must already name a child directory
(`fs.ErrNotExist` otherwise, write does not auto-create intermediates) and the
write recurses.  The node's own metadata is never touched. -/
def dir.WriteFile : dir → List String → List Nat → Nat → Nat → dir × Option Err
  | d, [], _, _, _ => (d, none)
  | d, [p], data, now, perm =>
    match lookupA p d.files with
    | some existing =>
      (.mk d.info d.dirs (updA p (existing.overwrite data now perm) d.files),
        none)
    | none =>
      (.mk d.info d.dirs (updA p (mkNewFile p data now perm) d.files), none)
  | d, p :: rest, data, now, perm =>
    match lookupA p d.dirs with
    | none => (d, some .notExist)
    | some sub =>
      let res := sub.WriteFile rest data now perm
      (.mk d.info (updA p res.1 d.dirs) d.files, res.2)

mutual
/-- The name-disjointness invariant, at this node and recursively in every
child directory: no key of `files` is also a key of `dirs`. -/
def dir.inv : dir → Bool
  | .mk _ ds fs => (fs.all fun kv => (lookupA kv.1 ds).isNone) && dirsInv ds

/-- `dir.inv` at every directory in a child-directory map. -/
def dirsInv : List (String × dir) → Bool
  | [] => true
  | (_, c) :: t => c.inv && dirsInv t
end

/-- An empty root directory used by concrete witnesses. -/
def root0 : dir := .mk ⟨".", 0x100, 0, true, 0⟩ [] []

/-- A root holding one empty child directory `a`, used by concrete witnesses. -/
def rootA : dir := .mk ⟨".", 0x100, 0, true, 0⟩ [("a", mkNewDir "a" 0 0)] []

/-- A root holding one child file `a`, used by concrete witnesses. -/
def rootF : dir := .mk ⟨".", 0x100, 0, true, 0⟩ [] [("a", mkNewFile "a" [1] 0 0)]

section Basics

@[simp] theorem dir.info_mk (i : fileinfo) (ds : List (String × dir))
    (fs : List (String × file)) : (dir.mk i ds fs).info = i := rfl

@[simp] theorem dir.dirs_mk (i : fileinfo) (ds : List (String × dir))
    (fs : List (String × file)) : (dir.mk i ds fs).dirs = ds := rfl

@[simp] theorem dir.files_mk (i : fileinfo) (ds : List (String × dir))
    (fs : List (String × file)) : (dir.mk i ds fs).files = fs := rfl

@[simp] theorem lookupA_nil {α : Type} (k : String) :
    lookupA k ([] : List (String × α)) = none := rfl

@[simp] theorem lookupA_cons {α : Type} (k k' : String) (v : α)
    (t : List (String × α)) :
    lookupA k ((k', v) :: t) = if k' = k then some v else lookupA k t := rfl

@[simp] theorem lookupA_updA {α : Type} (k k' : String) (v : α)
    (l : List (String × α)) :
    lookupA k' (updA k v l) = if k = k' then some v else lookupA k' l := by
  induction l with
  | nil => by_cases h : k = k' <;> simp [updA, h]
  | cons kv t ih =>
    obtain ⟨k₀, v₀⟩ := kv
    by_cases h0 : k₀ = k
    · subst h0
      by_cases h1 : k₀ = k' <;> simp [updA, h1]
    · by_cases h1 : k₀ = k'
      · subst h1
        simp [updA, h0, Ne.symm h0]
      · simp [updA, h0, h1, ih]

theorem lookupA_eq_none_iff {α : Type} (k : String) (l : List (String × α)) :
    lookupA k l = none ↔ ∀ kv ∈ l, kv.1 ≠ k := by
  induction l with
  | nil => simp
  | cons kv t ih =>
    obtain ⟨k₀, v₀⟩ := kv
    by_cases h : k₀ = k <;> simp [h, ih]

end Basics

section Equations

/-!
Definitional unfolding lemmas, one per argument shape, used instead of the
general equations so that rewriting never re-unfolds the recursive calls.
-/

theorem MkdirAll_nil_eq (d : dir) (now perm : Nat) :
    d.MkdirAll [] now perm = (d, none) := rfl

theorem MkdirAll_single_eq (d : dir) (p : String) (now perm : Nat) :
    d.MkdirAll [p] now perm =
      if (lookupA p d.files).isSome then (d, some .exist)
      else
        (.mk ⟨d.info.name, d.info.size, now, d.info.isDir, d.info.mode⟩
          (updA p ((lookupA p d.dirs).getD (mkNewDir p now perm)) d.dirs)
          d.files, none) := rfl

theorem MkdirAll_cons2_eq (d : dir) (p r : String) (rs : List String)
    (now perm : Nat) :
    d.MkdirAll (p :: r :: rs) now perm =
      if (lookupA p d.files).isSome then (d, some .exist)
      else
        (.mk ⟨d.info.name, d.info.size, now, d.info.isDir, d.info.mode⟩
          (updA p (((lookupA p d.dirs).getD (mkNewDir p now perm)).MkdirAll
              (r :: rs) now perm).1 d.dirs) d.files,
          (((lookupA p d.dirs).getD (mkNewDir p now perm)).MkdirAll
              (r :: rs) now perm).2) := rfl

theorem WriteFile_single_eq (d : dir) (p : String) (data : List Nat)
    (now perm : Nat) :
    d.WriteFile [p] data now perm =
      match lookupA p d.files with
      | some existing =>
        (.mk d.info d.dirs (updA p (existing.overwrite data now perm) d.files),
          none)
      | none =>
        (.mk d.info d.dirs (updA p (mkNewFile p data now perm) d.files),
          none) := rfl

theorem WriteFile_cons2_eq (d : dir) (p r : String) (rs : List String)
    (data : List Nat) (now perm : Nat) :
    d.WriteFile (p :: r :: rs) data now perm =
      match lookupA p d.dirs with
      | none => (d, some .notExist)
      | some sub =>
        (.mk d.info (updA p (sub.WriteFile (r :: rs) data now perm).1 d.dirs)
            d.files,
          (sub.WriteFile (r :: rs) data now perm).2) := rfl

theorem getDir_nil_eq (d : dir) : d.getDir [] = some d := rfl

theorem getDir_cons_eq (d : dir) (p : String) (rest : List String) :
    d.getDir (p :: rest) =
      if p = "" ∧ rest = [] then some d
      else
        match lookupA p d.dirs with
        | some c => c.getDir rest
        | none => none := rfl

theorem getFile_single_eq (d : dir) (p : String) :
    d.getFile [p] = lookupA p d.files := rfl

theorem getFile_cons2_eq (d : dir) (p r : String) (rs : List String) :
    d.getFile (p :: r :: rs) =
      match d.getDir [p] with
      | some sub => sub.getFile (r :: rs)
      | none => none := rfl

theorem ReadDir_nil_eq (d : dir) : d.ReadDir [] = .ok (listEntries d) := rfl

theorem ReadDir_cons_eq (d : dir) (p : String) (rest : List String) :
    d.ReadDir (p :: rest) =
      if p = "" ∧ rest = [] then .ok (listEntries d)
      else
        match lookupA p d.dirs with
        | some c => c.ReadDir rest
        | none => .error .notExist := rfl

end Equations

section InvLemmas

theorem dir.inv_mk (i : fileinfo) (ds : List (String × dir))
    (fs : List (String × file)) :
    (dir.mk i ds fs).inv =
      ((fs.all fun kv => (lookupA kv.1 ds).isNone) && dirsInv ds) := by
  rw [dir.inv]

theorem inv_mkNewDir (p : String) (now perm : Nat) :
    (mkNewDir p now perm).inv = true := by
  rw [mkNewDir, dir.inv_mk]
  rfl

theorem dirsInv_lookup {l : List (String × dir)} {k : String} {c : dir}
    (hd : dirsInv l = true) (hl : lookupA k l = some c) : c.inv = true := by
  induction l with
  | nil => simp at hl
  | cons kv t ih =>
    obtain ⟨k₀, c₀⟩ := kv
    rw [dirsInv, Bool.and_eq_true] at hd
    by_cases h : k₀ = k
    · simp only [lookupA_cons, if_pos h, Option.some.injEq] at hl
      exact hl ▸ hd.1
    · simp only [lookupA_cons, if_neg h] at hl
      exact ih hd.2 hl

theorem dirsInv_updA {l : List (String × dir)} {k : String} {c : dir}
    (hd : dirsInv l = true) (hc : c.inv = true) : dirsInv (updA k c l) = true := by
  induction l with
  | nil => simp [updA, dirsInv, hc]
  | cons kv t ih =>
    obtain ⟨k₀, c₀⟩ := kv
    rw [dirsInv, Bool.and_eq_true] at hd
    by_cases h : k₀ = k
    · simp only [updA, if_pos h]
      rw [dirsInv, Bool.and_eq_true]
      exact ⟨hc, hd.2⟩
    · simp only [updA, if_neg h]
      rw [dirsInv, Bool.and_eq_true]
      exact ⟨hd.1, ih hd.2⟩

end InvLemmas

/-- **C3**: whenever the child-file map of the node contains the first segment
of the path, `MkdirAll` fails with `fs.ErrExist` and the whole tree is
returned unchanged — the existing file is untouched, no directory is created,
and the node's modification time is not updated (src/dir.go:128-133 returns
before any mutation). -/
theorem mkdirAll_fileCollision_fails (d : dir) (p : String) (rest : List String)
    (now perm : Nat) (h : (lookupA p d.files).isSome = true) :
    d.MkdirAll (p :: rest) now perm = (d, some .exist) := by
  simp [dir.MkdirAll, h]

/-- Witness for `mkdirAll_fileCollision_fails` on a concrete tree holding the
file `a`. -/
theorem mkdirAll_fileCollision_fails_witness :
    (lookupA "a" rootF.files).isSome = true ∧
      rootF.MkdirAll ["a", "b"] 3 4 = (rootF, some .exist) :=
  ⟨by decide, mkdirAll_fileCollision_fails rootF "a" ["b"] 3 4 (by decide)⟩

/-- **C4**: for a multi-segment path whose first segment does not name an
existing child directory, `WriteFile` fails with `fs.ErrNotExist` and the tree
is returned unchanged — nothing is created anywhere
(src/dir.go:190-195 returns before any mutation). -/
theorem writeFile_missingIntermediate_fails (d : dir) (p r : String)
    (rs : List String) (data : List Nat) (now perm : Nat)
    (h : lookupA p d.dirs = none) :
    d.WriteFile (p :: r :: rs) data now perm = (d, some .notExist) := by
  simp [dir.WriteFile, h]

/-- Witness for `writeFile_missingIntermediate_fails` on a concrete tree with
no child directory `b`. -/
theorem writeFile_missingIntermediate_fails_witness :
    lookupA "b" rootA.dirs = none ∧
      rootA.WriteFile ["b", "c"] [9] 1 2 = (rootA, some .notExist) :=
  ⟨by rfl, writeFile_missingIntermediate_fails rootA "b" "c" [] [9] 1 2 (by rfl)⟩

section MkdirLemmas

/-- Top-level effect of `MkdirAll` on the receiving node's metadata: either
the call failed on a file collision and returned the node unchanged, or the
metadata is unchanged except for the modification time, now the current
time (src/dir.go:150). -/
theorem mkdirAll_info (c : dir) (parts : List String) (now perm : Nat) :
    ((c.MkdirAll parts now perm).1).info = c.info ∨
      ((c.MkdirAll parts now perm).1).info =
        ⟨c.info.name, c.info.size, now, c.info.isDir, c.info.mode⟩ := by
  match parts with
  | [] => exact Or.inl rfl
  | [p] =>
    by_cases h : (lookupA p c.files).isSome = true
    · left
      rw [MkdirAll_single_eq, if_pos h]
    · right
      rw [MkdirAll_single_eq, if_neg h]
      rfl
  | p :: r :: rs =>
    by_cases h : (lookupA p c.files).isSome = true
    · left
      rw [MkdirAll_cons2_eq, if_pos h]
    · right
      rw [MkdirAll_cons2_eq, if_neg h]
      rfl

end MkdirLemmas

/-- **C9**: when `MkdirAll` succeeds, the receiving node's modification time
is set to the current time whether or not the child directory named by the
first segment already existed, and a child directory absent before the call
now exists carrying exactly the supplied name, the placeholder size `0x100`,
the current time as modification time, the directory flag, and the supplied
mode (src/dir.go:135-150). -/
theorem mkdirAll_success_touches (d d' : dir) (p : String) (rest : List String)
    (now perm : Nat) (h : d.MkdirAll (p :: rest) now perm = (d', none)) :
    d'.info = ⟨d.info.name, d.info.size, now, d.info.isDir, d.info.mode⟩ ∧
      (lookupA p d.dirs = none →
        ∃ c, lookupA p d'.dirs = some c ∧
          c.info = ⟨p, 0x100, now, true, perm⟩) := by
  by_cases hcol : (lookupA p d.files).isSome = true
  · exfalso
    cases rest with
    | nil =>
      rw [MkdirAll_single_eq, if_pos hcol] at h
      exact Option.noConfusion (congrArg Prod.snd h)
    | cons r rs =>
      rw [MkdirAll_cons2_eq, if_pos hcol] at h
      exact Option.noConfusion (congrArg Prod.snd h)
  · cases rest with
    | nil =>
      rw [MkdirAll_single_eq, if_neg hcol, Prod.ext_iff] at h
      obtain ⟨h1, -⟩ := h
      subst h1
      refine ⟨rfl, fun hnone => ?_⟩
      refine ⟨(lookupA p d.dirs).getD (mkNewDir p now perm), ?_, ?_⟩
      · simp
      · rw [hnone]
        rfl
    | cons r rs =>
      rw [MkdirAll_cons2_eq, if_neg hcol, Prod.ext_iff] at h
      obtain ⟨h1, -⟩ := h
      subst h1
      refine ⟨rfl, fun hnone => ?_⟩
      rw [hnone]
      refine ⟨((mkNewDir p now perm).MkdirAll (r :: rs) now perm).1, ?_, ?_⟩
      · simp [hnone]
      · rcases mkdirAll_info (mkNewDir p now perm) (r :: rs) now perm with
          hi | hi <;> rw [hi] <;> rfl

/-- Witness for `mkdirAll_success_touches`: creating `a` under the empty root
at time 5 with mode 7. -/
theorem mkdirAll_success_touches_witness :
    ((root0.MkdirAll ["a"] 5 7).1).info = ⟨".", 0x100, 5, true, 0⟩ ∧
      ∃ c, lookupA "a" ((root0.MkdirAll ["a"] 5 7).1).dirs = some c ∧
        c.info = ⟨"a", 0x100, 5, true, 7⟩ := by
  have h := mkdirAll_success_touches root0 (root0.MkdirAll ["a"] 5 7).1 "a" []
    5 7 (by rfl)
  exact ⟨h.1, h.2 (by rfl)⟩

section InvPreservation

/-- Updating one child-directory binding with a node that satisfies the
invariant keeps the node invariant, provided the key collides with no file. -/
theorem inv_mk_updA (i' : fileinfo) (ds : List (String × dir))
    (fs : List (String × file)) (p : String) (c' : dir)
    (hfs : (fs.all fun kv => (lookupA kv.1 ds).isNone) = true)
    (hds : dirsInv ds = true) (hp : lookupA p fs = none)
    (hc : c'.inv = true) : (dir.mk i' (updA p c' ds) fs).inv = true := by
  rw [dir.inv_mk, Bool.and_eq_true]
  refine ⟨?_, dirsInv_updA hds hc⟩
  rw [List.all_eq_true] at hfs ⊢
  intro kv hkv
  have hne : kv.1 ≠ p := (lookupA_eq_none_iff p fs).mp hp kv hkv
  have hkv' := hfs kv hkv
  simp only [lookupA_updA, if_neg (Ne.symm hne)]
  exact hkv'

/-- **C2 (amended)**: `MkdirAll` preserves the name-disjointness invariant in
every node of the tree; `Open`, `getFile`, `getDir` and `ReadDir` do not
modify the tree at all (they are read-only by construction in this
embedding).  `WriteFile` does not preserve the invariant — see the
counterexample `writeFile_breaks_inv_cex`. -/
theorem mkdirAll_preserves_inv (parts : List String) (d : dir)
    (now perm : Nat) (h : d.inv = true) :
    ((d.MkdirAll parts now perm).1).inv = true := by
  induction parts generalizing d with
  | nil => rw [MkdirAll_nil_eq]; exact h
  | cons p rest ih =>
    obtain ⟨i, ds, fs⟩ := d
    rw [dir.inv_mk, Bool.and_eq_true] at h
    obtain ⟨hfs, hds⟩ := h
    have hinv : (dir.mk i ds fs).inv = true := by
      rw [dir.inv_mk, Bool.and_eq_true]
      exact ⟨hfs, hds⟩
    by_cases hcol : (lookupA p (dir.mk i ds fs).files).isSome = true
    · cases rest with
      | nil => rw [MkdirAll_single_eq, if_pos hcol]; exact hinv
      | cons r rs => rw [MkdirAll_cons2_eq, if_pos hcol]; exact hinv
    · have hp : lookupA p fs = none := by
        cases hlp : lookupA p fs with
        | none => rfl
        | some v => rw [dir.files_mk, hlp] at hcol; simp at hcol
      have hchild :
          ((lookupA p (dir.mk i ds fs).dirs).getD (mkNewDir p now perm)).inv
            = true := by
        cases hld : lookupA p (dir.mk i ds fs).dirs with
        | none =>
          simp only [hld, Option.getD_none]
          exact inv_mkNewDir p now perm
        | some c =>
          simp only [hld, Option.getD_some]
          exact dirsInv_lookup hds (by rw [dir.dirs_mk] at hld; exact hld)
      cases rest with
      | nil =>
        rw [MkdirAll_single_eq, if_neg hcol]
        exact inv_mk_updA _ ds fs p _ hfs hds hp hchild
      | cons r rs =>
        rw [MkdirAll_cons2_eq, if_neg hcol]
        exact inv_mk_updA _ ds fs p _ hfs hds hp (ih _ hchild)

/-- Witness for `mkdirAll_preserves_inv`: creating `x/y` under a root that
already holds the directory `a`. -/
theorem mkdirAll_preserves_inv_witness :
    rootA.inv = true ∧ ((rootA.MkdirAll ["x", "y"] 3 4).1).inv = true :=
  ⟨by decide, mkdirAll_preserves_inv ["x", "y"] rootA 3 4 (by decide)⟩

/-- **C2, counterexample**: the claim fails as stated.  On the invariant-
satisfying tree `rootA` (one child directory `a`), `WriteFile` at path `a`
succeeds and produces a tree in which `a` is a key of both the
child-directory and the child-file map of the root, so the invariant is
violated (src/dir.go:167-187 never checks `dirs` at the leaf). -/
theorem writeFile_breaks_inv_cex :
    rootA.inv = true ∧ (rootA.WriteFile ["a"] [1] 0 0).2 = none ∧
      ((rootA.WriteFile ["a"] [1] 0 0).1).inv = false := by
  refine ⟨by decide, by decide, by decide⟩

end InvPreservation

section RoundTrip

/-- Paths (as segment lists) in which every segment except possibly the last
is non-empty: the split of a slash-separated path with no leading and no
doubled separator (a trailing separator is allowed). -/
def wellFormedPath : List String → Bool
  | [] => true
  | [_] => true
  | p :: rest => (p != "") && wellFormedPath rest

theorem wellFormedPath_cons2_eq (p r : String) (rs : List String) :
    wellFormedPath (p :: r :: rs) = ((p != "") && wellFormedPath (r :: rs)) :=
  rfl

theorem getDir_single (d : dir) (p : String) (hp : p ≠ "") :
    d.getDir [p] = lookupA p d.dirs := by
  rw [getDir_cons_eq, if_neg (by simp [hp])]
  cases lookupA p d.dirs with
  | none => rfl
  | some c => rfl

/-- After a successful `WriteFile`, resolving the same segment list with
`getFile` finds a file whose content is exactly the written data. -/
theorem writeFile_getFile (parts : List String) (d d' : dir)
    (data : List Nat) (now perm : Nat) (hne : parts ≠ [])
    (hwf : wellFormedPath parts = true)
    (h : d.WriteFile parts data now perm = (d', none)) :
    ∃ f, d'.getFile parts = some f ∧ f.content = data := by
  induction parts generalizing d d' with
  | nil => exact absurd rfl hne
  | cons p rest ih =>
    cases rest with
    | nil =>
      rw [WriteFile_single_eq] at h
      cases hlf : lookupA p d.files with
      | some existing =>
        simp only [hlf] at h
        rw [Prod.mk.injEq] at h
        obtain ⟨h1, -⟩ := h
        subst h1
        exact ⟨existing.overwrite data now perm,
          by simp [getFile_single_eq], rfl⟩
      | none =>
        simp only [hlf] at h
        rw [Prod.mk.injEq] at h
        obtain ⟨h1, -⟩ := h
        subst h1
        exact ⟨mkNewFile p data now perm, by simp [getFile_single_eq], rfl⟩
    | cons r rs =>
      rw [wellFormedPath_cons2_eq, Bool.and_eq_true] at hwf
      obtain ⟨hp', hwf'⟩ := hwf
      have hp : p ≠ "" := by simpa using hp'
      rw [WriteFile_cons2_eq] at h
      cases hld : lookupA p d.dirs with
      | none =>
        simp only [hld] at h
        rw [Prod.mk.injEq] at h
        exact Option.noConfusion h.2
      | some sub =>
        simp only [hld] at h
        rw [Prod.mk.injEq] at h
        obtain ⟨h1, h2⟩ := h
        subst h1
        have hrec : sub.WriteFile (r :: rs) data now perm =
            ((sub.WriteFile (r :: rs) data now perm).1, none) := by
          rw [Prod.ext_iff]
          exact ⟨rfl, h2⟩
        obtain ⟨f, hf, hc⟩ := ih sub _ (by simp) hwf' hrec
        refine ⟨f, ?_, hc⟩
        rw [getFile_cons2_eq, getDir_single _ p hp]
        simp only [dir.dirs_mk, lookupA_updA, if_pos rfl]
        exact hf

/-- **C1 (amended)**: for every non-empty path other than `""` and `"."`
whose segments are all non-empty except possibly a trailing one (no leading
or doubled separator), if `WriteFile` succeeds then `Open` on the same path
returns a file read handle, and reading it to completion yields exactly the
written data, byte for byte. -/
theorem writeFile_open_roundTrip (parts : List String) (d d' : dir)
    (data : List Nat) (now perm : Nat) (h0 : parts ≠ [])
    (h1 : parts ≠ [""]) (h2 : parts ≠ ["."])
    (hwf : wellFormedPath parts = true)
    (h : d.WriteFile parts data now perm = (d', none)) :
    ∃ hR, d'.Open parts = .ok (.fileH hR) ∧ hR.readAll = data := by
  obtain ⟨f, hf, hc⟩ := writeFile_getFile parts d d' data now perm h0 hwf h
  refine ⟨f.openR, ?_, ?_⟩
  · simp only [dir.Open, hf]
    rw [if_neg (not_or.mpr ⟨h1, h2⟩)]
  · simp [handleR.readAll, file.openR, hc]

/-- Witness for `writeFile_open_roundTrip`: writing `[3, 4]` at `a/x` under a
root holding the directory `a`, then opening `a/x` and reading it back. -/
theorem writeFile_open_roundTrip_witness :
    ∃ hR, ((rootA.WriteFile ["a", "x"] [3, 4] 1 2).1).Open ["a", "x"] =
        .ok (.fileH hR) ∧ hR.readAll = [3, 4] :=
  writeFile_open_roundTrip ["a", "x"] rootA
    (rootA.WriteFile ["a", "x"] [3, 4] 1 2).1 [3, 4] 1 2 (by decide)
    (by decide) (by decide) (by decide) (by rfl)

/-- **C1, counterexample**: quantified over every path the claim fails at the
path `"."` (whose only intermediate-directory requirement is vacuous):
`WriteFile` at `"."` succeeds, storing a file literally named `"."`, but
`Open` at `"."` returns the directory node itself (src/dir.go:24-26), whose
`Read` always fails with `fs.ErrInvalid`, so reading the returned handle can
never yield the written data. -/
theorem writeFile_open_roundTrip_cex :
    (root0.WriteFile ["."] [7] 0 0).2 = none ∧
      ((root0.WriteFile ["."] [7] 0 0).1).Open ["."] =
        .ok (.dirH (root0.WriteFile ["."] [7] 0 0).1) ∧
      ((root0.WriteFile ["."] [7] 0 0).1).Read [7] = (0, some .invalid) :=
  ⟨rfl, rfl, rfl⟩

end RoundTrip

section OpenSemantics

/-- **C6**: for every path other than `""` and `"."` (which denote the node
itself), `Open` tries the file lookup first and returns a file handle when it
succeeds; it falls back to the directory lookup only when the file lookup
fails (with not-found — the only failure `getFile` produces); and when
neither resolves, it fails with an error wrapping the not-found condition
together with the original path, an error `os.IsNotExist` recognises. -/
theorem open_lookup_order :
    (∀ (d : dir) (name : List String) (f : file), name ≠ [""] →
      name ≠ ["."] → d.getFile name = some f →
      d.Open name = .ok (.fileH f.openR)) ∧
    (∀ (d : dir) (name : List String) (c : dir), name ≠ [""] →
      name ≠ ["."] → d.getFile name = none → d.getDir name = some c →
      d.Open name = .ok (.dirH c)) ∧
    (∀ (d : dir) (name : List String), name ≠ [""] → name ≠ ["."] →
      d.getFile name = none → d.getDir name = none →
      d.Open name = .error (.wrap name .notExist) ∧
        (Err.wrap name .notExist).isNotExist = true) := by
  refine ⟨?_, ?_, ?_⟩
  · intro d name f h1 h2 hf
    simp only [dir.Open, hf]
    rw [if_neg (not_or.mpr ⟨h1, h2⟩)]
  · intro d name c h1 h2 hf hd
    simp only [dir.Open, hf, hd]
    rw [if_neg (not_or.mpr ⟨h1, h2⟩)]
  · intro d name h1 h2 hf hd
    refine ⟨?_, rfl⟩
    simp only [dir.Open, hf, hd]
    rw [if_neg (not_or.mpr ⟨h1, h2⟩)]

/-- Witness for `open_lookup_order`: opening the file `a` and the absent name
`b` on a concrete tree. -/
theorem open_lookup_order_witness :
    rootF.Open ["a"] = .ok (.fileH (mkNewFile "a" [1] 0 0).openR) ∧
      rootF.Open ["b"] = .error (.wrap ["b"] .notExist) :=
  ⟨open_lookup_order.1 rootF ["a"] (mkNewFile "a" [1] 0 0) (by decide)
      (by decide) (by rfl),
    (open_lookup_order.2.2 rootF ["b"] (by decide) (by decide) (by rfl)
      (by rfl)).1⟩

/-- **C7**: resolution is read-only by construction in this embedding —
`getFile`, `getDir`, `Open` and the lookup phase of `ReadDir` return results
without a new tree, mirroring the Go code, which performs no map assignment
in these functions (compare the `dir × Option Err` results of the mutating
operations).  This theorem records the failure discipline of the resolver:
once a leading portion of the path fails to resolve to a directory, the whole
resolution fails with not-found no matter what follows; a multi-segment
`getFile` fails as soon as its first segment names no directory; and on a
final segment `getFile` succeeds exactly when the name is in the file map. -/
theorem resolution_readOnly_early_failure :
    (∀ (d : dir) (l₁ l₂ : List String), d.getDir l₁ = none →
      d.getDir (l₁ ++ l₂) = none) ∧
    (∀ (d : dir) (p : String) (rest : List String), rest ≠ [] →
      d.getDir [p] = none → d.getFile (p :: rest) = none) ∧
    (∀ (d : dir) (p : String), d.getFile [p] = lookupA p d.files) := by
  refine ⟨?_, ?_, fun d p => getFile_single_eq d p⟩
  · intro d l₁ l₂ h
    induction l₁ generalizing d with
    | nil => rw [getDir_nil_eq] at h; exact Option.noConfusion h
    | cons p rest ih =>
      rw [getDir_cons_eq] at h
      by_cases hpe : p = "" ∧ rest = []
      · rw [if_pos hpe] at h
        exact Option.noConfusion h
      · rw [if_neg hpe] at h
        rw [List.cons_append, getDir_cons_eq, if_neg ?hc]
        case hc =>
          rintro ⟨hp, hr⟩
          rw [List.append_eq_nil] at hr
          exact hpe ⟨hp, hr.1⟩
        cases hld : lookupA p d.dirs with
        | none => rfl
        | some c =>
          rw [hld] at h
          simp only [hld]
          exact ih c h
  · intro d p rest hrest h
    cases rest with
    | nil => exact absurd rfl hrest
    | cons r rs =>
      rw [getFile_cons2_eq]
      simp only [h]

/-- Witness for `resolution_readOnly_early_failure`: on a concrete tree with
no child `b`, resolution of `b/c` fails both as a directory chain and as a
file path. -/
theorem resolution_readOnly_early_failure_witness :
    rootA.getDir (["b"] ++ ["c"]) = none ∧ rootA.getFile ["b", "c"] = none :=
  ⟨resolution_readOnly_early_failure.1 rootA ["b"] ["c"] (by rfl),
    resolution_readOnly_early_failure.2.1 rootA "b" ["c"] (by decide)
      (by rfl)⟩

end OpenSemantics

section DotEmpty

/-- **C8 (amended)**: `Open` treats both `""` and `"."` as denoting the
current node.  `ReadDir` treats only `""` that way and fails with not-found
on `"."` when no child directory is literally named `"."`.  `MkdirAll` and
`WriteFile` treat neither path specially: called with `"."` or `""` they
create (or overwrite) a child entry whose literal name is `"."` or `""`. -/
theorem dot_empty_path_behaviour :
    (∀ d : dir, d.Open [""] = .ok (.dirH d) ∧ d.Open ["."] = .ok (.dirH d)) ∧
    (∀ d : dir, d.ReadDir [""] = .ok (listEntries d)) ∧
    (∀ d : dir, lookupA "." d.dirs = none →
      d.ReadDir ["."] = .error .notExist) ∧
    (∀ (d : dir) (now perm : Nat), lookupA "." d.files = none →
      ∃ c, lookupA "." ((d.MkdirAll ["."] now perm).1).dirs = some c) ∧
    (∀ (d : dir) (now perm : Nat), lookupA "" d.files = none →
      ∃ c, lookupA "" ((d.MkdirAll [""] now perm).1).dirs = some c) ∧
    (∀ (d : dir) (data : List Nat) (now perm : Nat),
      ∃ f, lookupA "." ((d.WriteFile ["."] data now perm).1).files = some f ∧
        f.content = data) ∧
    (∀ (d : dir) (data : List Nat) (now perm : Nat),
      ∃ f, lookupA "" ((d.WriteFile [""] data now perm).1).files = some f ∧
        f.content = data) := by
  refine ⟨fun d => ⟨by simp [dir.Open], by simp [dir.Open]⟩, fun d => rfl,
    ?_, ?_, ?_, ?_, ?_⟩
  · intro d h
    rw [ReadDir_cons_eq, if_neg (by simp)]
    simp only [h]
  · intro d now perm h
    rw [MkdirAll_single_eq, if_neg (by simp [h])]
    refine ⟨(lookupA "." d.dirs).getD (mkNewDir "." now perm), ?_⟩
    simp
  · intro d now perm h
    rw [MkdirAll_single_eq, if_neg (by simp [h])]
    refine ⟨(lookupA "" d.dirs).getD (mkNewDir "" now perm), ?_⟩
    simp
  · intro d data now perm
    rw [WriteFile_single_eq]
    cases hlf : lookupA "." d.files with
    | some e => exact ⟨e.overwrite data now perm, by simp, rfl⟩
    | none => exact ⟨mkNewFile "." data now perm, by simp, rfl⟩
  · intro d data now perm
    rw [WriteFile_single_eq]
    cases hlf : lookupA "" d.files with
    | some e => exact ⟨e.overwrite data now perm, by simp, rfl⟩
    | none => exact ⟨mkNewFile "" data now perm, by simp, rfl⟩

/-- Witness for `dot_empty_path_behaviour` at a concrete empty root. -/
theorem dot_empty_path_behaviour_witness :
    root0.Open ["."] = .ok (.dirH root0) ∧
      root0.ReadDir ["."] = .error .notExist ∧
      ∃ c, lookupA "." ((root0.MkdirAll ["."] 3 4).1).dirs = some c :=
  ⟨(dot_empty_path_behaviour.1 root0).2,
    dot_empty_path_behaviour.2.2.1 root0 (by rfl),
    dot_empty_path_behaviour.2.2.2.1 root0 3 4 (by rfl)⟩

/-- **C8, counterexample**: the claim fails as stated — `MkdirAll` called
with the path `"."` on the empty root succeeds and creates a child directory
entry whose literal name is `"."` (src/dir.go:125-150 never special-cases
`"."` or `""`). -/
theorem dot_empty_path_behaviour_cex :
    (root0.MkdirAll ["."] 0 0).2 = none ∧
      (lookupA "." ((root0.MkdirAll ["."] 0 0).1).dirs).isSome = true :=
  ⟨rfl, rfl⟩

end DotEmpty

section TrailingSep

/-- Appending a trailing empty segment (a trailing separator in the path
string) does not change directory resolution, provided the path is non-empty
and its last segment is not itself empty. -/
theorem getDir_append_trailing (l : List String) (d : dir) (h0 : l ≠ [])
    (h1 : l.getLast? ≠ some "") :
    d.getDir (l ++ [""]) = d.getDir l := by
  induction l generalizing d with
  | nil => exact absurd rfl h0
  | cons p rest ih =>
    cases rest with
    | nil =>
      have hp : p ≠ "" := fun hpe => h1 (by rw [hpe]; rfl)
      rw [List.cons_append, List.nil_append, getDir_cons_eq, getDir_cons_eq,
        if_neg (by simp [hp]), if_neg (by simp [hp])]
      cases lookupA p d.dirs with
      | none => rfl
      | some c => rfl
    | cons r rs =>
      have h1' : (r :: rs).getLast? ≠ some "" := by
        rw [List.getLast?_cons_cons] at h1
        exact h1
      rw [List.cons_append, getDir_cons_eq, getDir_cons_eq,
        if_neg (by simp), if_neg (by simp)]
      cases hld : lookupA p d.dirs with
      | none => rfl
      | some c => exact ih c (by simp) h1'

/-- **C10 (amended)**: for every directory reachable at a non-empty path
whose last segment is non-empty, `Open` on the path with a trailing
separator succeeds and returns that directory node, provided no child file
literally named `""` shadows it in the file lookup that `Open` tries first.
(The bare path `""` is excluded: its trailing-slash form `"/"` looks up a
literal `""` child instead — see the counterexample.) -/
theorem open_trailing_separator (d : dir) (l : List String) (c : dir)
    (h0 : l ≠ []) (h1 : l.getLast? ≠ some "") (h2 : d.getDir l = some c)
    (h3 : d.getFile (l ++ [""]) = none) :
    d.Open (l ++ [""]) = .ok (.dirH c) := by
  have hne1 : l ++ [""] ≠ [""] := by
    intro he
    have hlen := congrArg List.length he
    simp only [List.length_append, List.length_cons, List.length_nil] at hlen
    exact h0 (List.length_eq_zero.mp (by omega))
  have hne2 : l ++ [""] ≠ ["."] := by
    intro he
    have hlen := congrArg List.length he
    simp only [List.length_append, List.length_cons, List.length_nil] at hlen
    have hl0 : l = [] := List.length_eq_zero.mp (by omega)
    rw [hl0] at he
    exact absurd he (by decide)
  simp only [dir.Open, h3, getDir_append_trailing l d h0 h1, h2]
  rw [if_neg (not_or.mpr ⟨hne1, hne2⟩)]

/-- Witness for `open_trailing_separator`: opening `a/` on a tree holding the
directory `a`. -/
theorem open_trailing_separator_witness :
    rootA.Open (["a"] ++ [""]) = .ok (.dirH (mkNewDir "a" 0 0)) :=
  open_trailing_separator rootA ["a"] (mkNewDir "a" 0 0) (by decide)
    (by decide) (by rfl) (by rfl)

/-- **C10, counterexample**: the claim fails as stated.  The root is an
existing directory reachable at the path `""` (the directory resolver
returns it), yet `Open` on `"" ++ "/"` — the string `"/"`, segments
`["", ""]` — fails with not-found, because the resolver looks up a literal
`""` child directory rather than treating the trailing separator as the
current node. -/
theorem open_trailing_separator_cex :
    rootA.getDir [""] = some rootA ∧
      rootA.Open ["", ""] = .error (.wrap ["", ""] .notExist) :=
  ⟨rfl, rfl⟩

end TrailingSep

section Listing

theorem pairwise_lt_of_le_ne (l : List fileinfo) (hs : l.Pairwise nameLe)
    (hn : l.Pairwise fun a b => a.name ≠ b.name) : l.Pairwise nameLt := by
  induction l with
  | nil => exact List.Pairwise.nil
  | cons a t ih =>
    rw [List.pairwise_cons] at hs hn ⊢
    exact ⟨fun b hb => lt_of_le_of_ne (hs.1 b hb) (hn.1 b hb), ih hs.2 hn.2⟩

/-- Two child-map configurations that are permutations of one another (Go map
iteration order is arbitrary) produce the same listing, as long as the entry
names are distinct. -/
theorem listEntries_perm_invariant (i : fileinfo)
    (ds ds' : List (String × dir)) (fs fs' : List (String × file))
    (hds : ds'.Perm ds) (hfs : fs'.Perm fs)
    (hnd : (((fs.map fun kv => kv.2.openR.stat) ++
        ds.map fun kv => kv.2.Stat).map fileinfo.name).Nodup) :
    listEntries (dir.mk i ds' fs') = listEntries (dir.mk i ds fs) := by
  have hperm : ((fs'.map fun kv => kv.2.openR.stat) ++
      ds'.map fun kv => kv.2.Stat).Perm
      ((fs.map fun kv => kv.2.openR.stat) ++ ds.map fun kv => kv.2.Stat) :=
    (hfs.map _).append (hds.map _)
  have hsort1 : (listEntries (dir.mk i ds' fs')).Sorted nameLe :=
    List.sorted_insertionSort nameLe _
  have hsort2 : (listEntries (dir.mk i ds fs)).Sorted nameLe :=
    List.sorted_insertionSort nameLe _
  have hp : (listEntries (dir.mk i ds' fs')).Perm
      (listEntries (dir.mk i ds fs)) :=
    ((List.perm_insertionSort nameLe _).trans hperm).trans
      (List.perm_insertionSort nameLe _).symm
  have hnd2 : ((listEntries (dir.mk i ds fs)).map fileinfo.name).Nodup :=
    ((List.perm_insertionSort nameLe _).map fileinfo.name).nodup_iff.mpr hnd
  have hnd1 : ((listEntries (dir.mk i ds' fs')).map fileinfo.name).Nodup :=
    ((hp.map fileinfo.name).nodup_iff).mpr hnd2
  have hlt1 : (listEntries (dir.mk i ds' fs')).Sorted nameLt :=
    pairwise_lt_of_le_ne _ hsort1 (List.pairwise_map.mp hnd1)
  have hlt2 : (listEntries (dir.mk i ds fs)).Sorted nameLt :=
    pairwise_lt_of_le_ne _ hsort2 (List.pairwise_map.mp hnd2)
  exact List.eq_of_perm_of_sorted hp hlt1 hlt2

/-- **C5**: `ReadDir` with the empty path returns exactly one metadata
snapshot per direct child file and one per direct child directory (the
listing is a permutation of the child-stat multiset — no more, no fewer),
sorted nondecreasingly in the lexicographic name order; and whenever the
entry names are distinct, the returned sequence is independent of the
insertion (iteration) order of the two child maps. -/
theorem readDir_empty_listing (i : fileinfo) (ds : List (String × dir))
    (fs : List (String × file)) :
    ∃ es, (dir.mk i ds fs).ReadDir [""] = .ok es ∧
      es.Perm ((fs.map fun kv => kv.2.openR.stat) ++
        ds.map fun kv => kv.2.Stat) ∧
      es.Sorted nameLe ∧
      ((((fs.map fun kv => kv.2.openR.stat) ++
          ds.map fun kv => kv.2.Stat).map fileinfo.name).Nodup →
        ∀ (ds' : List (String × dir)) (fs' : List (String × file)),
          ds'.Perm ds → fs'.Perm fs →
          (dir.mk i ds' fs').ReadDir [""] = (dir.mk i ds fs).ReadDir [""]) := by
  refine ⟨listEntries (dir.mk i ds fs), rfl,
    List.perm_insertionSort nameLe _, List.sorted_insertionSort nameLe _,
    ?_⟩
  intro hnd ds' fs' hds hfs
  show Except.ok (listEntries (dir.mk i ds' fs')) =
    Except.ok (listEntries (dir.mk i ds fs))
  rw [listEntries_perm_invariant i ds ds' fs fs' hds hfs hnd]

/-- Witness for `readDir_empty_listing`: a node holding the file `x` and the
directories `y` and `z`, listed after inserting the directories in either
order. -/
theorem readDir_empty_listing_witness :
    ∃ es, (dir.mk ⟨".", 0x100, 0, true, 0⟩
        [("y", mkNewDir "y" 0 0), ("z", mkNewDir "z" 0 0)]
        [("x", mkNewFile "x" [1] 0 0)]).ReadDir [""] = .ok es ∧
      es.Perm (([("x", mkNewFile "x" [1] 0 0)].map fun kv =>
          kv.2.openR.stat) ++
        [("y", mkNewDir "y" 0 0), ("z", mkNewDir "z" 0 0)].map fun kv =>
          kv.2.Stat) ∧
      es.Sorted nameLe ∧
      (dir.mk ⟨".", 0x100, 0, true, 0⟩
          [("z", mkNewDir "z" 0 0), ("y", mkNewDir "y" 0 0)]
          [("x", mkNewFile "x" [1] 0 0)]).ReadDir [""] =
        (dir.mk ⟨".", 0x100, 0, true, 0⟩
          [("y", mkNewDir "y" 0 0), ("z", mkNewDir "z" 0 0)]
          [("x", mkNewFile "x" [1] 0 0)]).ReadDir [""] := by
  obtain ⟨es, h1, h2, h3, h4⟩ := readDir_empty_listing ⟨".", 0x100, 0, true, 0⟩
    [("y", mkNewDir "y" 0 0), ("z", mkNewDir "z" 0 0)]
    [("x", mkNewFile "x" [1] 0 0)]
  exact ⟨es, h1, h2, h3,
    h4 (by decide) _ _ (List.Perm.swap _ _ _) (List.Perm.refl _)⟩

end Listing

end MemoryFS
